import Mathlib

/-!
Verification development for the Guardian.js package-policy CLI
(`src/bin/cli.js`, with an earlier variant in `src/unnamed/part_000`).

The pure decision logic of the tool is embedded shallowly:
the duration parser `parseMinAge`, the specifier splitter `splitPkgSpec`,
the version resolver inside `checkAndInstall` / `resolveSafeVersion`,
the vulnerability classifier `checkVulnerabilities`, and the batch
orchestrators `run` / `Update`.  Side effects (registry fetch, npm
install/uninstall, console output) are reflected as explicit inputs
(a metadata snapshot, an audit report, a clock value) and as outcome
values recording which effect the code would perform.

The `semver` npm library is external to the repository; its ordering and
range semantics are modelled from the specification's words
("standard semantic-version precedence, pre-releases ranked below their
corresponding release").
-/

/-- Modelled from the spec: one pre-release identifier of a semantic
version (the `semver` npm library is an external collaborator, not part
of this repository's source).  A numeric identifier compares numerically
and ranks below every alphanumeric identifier; alphanumeric identifiers
compare lexicographically by character. -/
inductive PreId where
  | num (n : Nat)
  | str (s : List Char)
deriving DecidableEq, Repr

/-- Modelled from the spec: a parsed semantic version
`major.minor.patch[-pre]`.  Build metadata is not modelled (it is
ignored by semantic-version precedence). -/
structure Version where
  major : Nat
  minor : Nat
  patch : Nat
  pre : List PreId
deriving DecidableEq, Repr

/-- Order key of a pre-release identifier: numeric identifiers (`Sum.inl`)
rank below alphanumeric ones (`Sum.inr`) under the lexicographic sum
order. -/
def PreId.key : PreId → Lex (Nat ⊕ List Char)
  | .num n => toLex (Sum.inl n)
  | .str s => toLex (Sum.inr s)

/-- Order key of a pre-release identifier list: a release (empty list)
ranks above every pre-release, hence maps to `⊤`; pre-release lists
compare lexicographically, a strict prefix ranking lower. -/
abbrev PreKey := WithTop (List (Lex (Nat ⊕ List Char)))

def preKey : List PreId → PreKey
  | [] => ⊤
  | l => ((l.map PreId.key : List (Lex (Nat ⊕ List Char))) : PreKey)

/-- Order key of a whole version: lexicographic on
(major, minor, patch, pre-release key). -/
abbrev VKey := Lex (Nat × Lex (Nat × Lex (Nat × PreKey)))

def Version.key (v : Version) : VKey :=
  toLex (v.major, toLex (v.minor, toLex (v.patch, preKey v.pre)))

/-- Modelled from the spec: standard semantic-version precedence, as the
order induced by `Version.key`. -/
def vle (a b : Version) : Prop := a.key ≤ b.key

def vlt (a b : Version) : Prop := a.key < b.key

instance (a b : Version) : Decidable (vle a b) :=
  inferInstanceAs (Decidable (a.key ≤ b.key))

instance (a b : Version) : Decidable (vlt a b) :=
  inferInstanceAs (Decidable (a.key < b.key))

/-- Modelled from the spec: the version ranges the tool is exercised
with — `*` (any version), an exact version, and a caret range
`^x.y.z`. -/
inductive SemverRange where
  | star
  | exact (v : Version)
  | caret (v : Version)
deriving DecidableEq, Repr

/-- Modelled from the spec: exclusive upper bound of a caret range,
`^1.2.3 → <2.0.0-0`, `^0.2.3 → <0.3.0-0`, `^0.0.3 → <0.0.4-0`. -/
def caretUpper (v : Version) : Version :=
  if 0 < v.major then ⟨v.major + 1, 0, 0, [PreId.num 0]⟩
  else if 0 < v.minor then ⟨v.major, v.minor + 1, 0, [PreId.num 0]⟩
  else ⟨v.major, v.minor, v.patch + 1, [PreId.num 0]⟩

/-- Modelled from the spec: range satisfaction. -/
def satisfies : SemverRange → Version → Bool
  | .star, _ => true
  | .exact u, v => decide (v = u)
  | .caret u, v => decide (vle u v) && decide (vlt v (caretUpper u))

/-- Decimal value of a digit string (`parseInt(s, 10)` on an all-digit
string). -/
def natOfDigits (cs : List Char) : Nat :=
  cs.foldl (fun n c => 10 * n + (c.toNat - 48)) 0

/-- Modelled from the spec: parsing a version literal
`major.minor.patch[-pre.ids]` (done by the external `semver` library in
the source). -/
def parseVersion (s : String) : Option Version :=
  let cs := s.data
  let core := cs.takeWhile (fun c => c ≠ '-')
  let preIds : List PreId :=
    if cs.contains '-' then
      (((cs.dropWhile (fun c => c ≠ '-')).drop 1).splitOn '.').map
        (fun p => if p ≠ [] ∧ p.all Char.isDigit then .num (natOfDigits p) else .str p)
    else []
  match core.splitOn '.' with
  | [a, b, c] =>
      if a ≠ [] ∧ a.all Char.isDigit ∧ b ≠ [] ∧ b.all Char.isDigit ∧
         c ≠ [] ∧ c.all Char.isDigit then
        some ⟨natOfDigits a, natOfDigits b, natOfDigits c, preIds⟩
      else none
  | _ => none

/-- Modelled from the spec: parsing the range strings the tool is
exercised with. -/
def parseRange (s : String) : Option SemverRange :=
  if s = "*" then some .star
  else
    match s.data with
    | '^' :: rest => (parseVersion (String.mk rest)).map .caret
    | _ => (parseVersion s).map .exact

/-- Range satisfaction against a raw range string; an unparseable range
matches nothing. -/
def satisfiesStr (rs : String) (v : Version) : Bool :=
  match parseRange rs with
  | some r => satisfies r v
  | none => false

/-- Running maximum under semantic-version precedence, seeded with `m`
(the accumulator shape of `semver.maxSatisfying`). -/
def maxFrom (m : Version) (l : List Version) : Version :=
  l.foldl (fun acc v => if vle acc v then v else acc) m

/-- Modelled from the spec: `semver.maxSatisfying(versions, range)` — the
highest version in the list satisfying the range, `none` when no version
does. -/
def maxSatisfying (vs : List Version) (r : SemverRange) : Option Version :=
  match vs.filter (fun v => satisfies r v) with
  | [] => none
  | x :: xs => some (maxFrom x xs)

/-- Embeds `parseMinAge` (src/bin/cli.js 160-175), string branch, on the
character list of the input: a bare digit string (`^\d+$`) is taken as
days; otherwise the string must decompose as digits followed by a unit
`d|w|m|h|hs` matched case-insensitively (the regex
`^(\d+)(d|w|m|h|hs)$/i`, here realized by the maximal digit prefix and
the lowercased remainder); `d` leaves the value, `w` multiplies by 7,
`m` by 30, `h`/`hs` divides by 24 (JS number division, hence ℚ). -/
def parseMinAgeList (cs : List Char) : Except String ℚ :=
  if !cs.isEmpty && cs.all Char.isDigit then .ok (natOfDigits cs)
  else if (cs.takeWhile Char.isDigit).isEmpty then
    .error ("Invalid format for minAge: " ++ String.mk cs)
  else if (cs.dropWhile Char.isDigit).map Char.toLower = ['d'] then
    .ok ((natOfDigits (cs.takeWhile Char.isDigit) : ℚ))
  else if (cs.dropWhile Char.isDigit).map Char.toLower = ['w'] then
    .ok (7 * (natOfDigits (cs.takeWhile Char.isDigit) : ℚ))
  else if (cs.dropWhile Char.isDigit).map Char.toLower = ['m'] then
    .ok (30 * (natOfDigits (cs.takeWhile Char.isDigit) : ℚ))
  else if (cs.dropWhile Char.isDigit).map Char.toLower = ['h'] then
    .ok ((natOfDigits (cs.takeWhile Char.isDigit) : ℚ) / 24)
  else if (cs.dropWhile Char.isDigit).map Char.toLower = ['h', 's'] then
    .ok ((natOfDigits (cs.takeWhile Char.isDigit) : ℚ) / 24)
  else .error ("Invalid format for minAge: " ++ String.mk cs)

/-- String-level entry point of the duration parser's string branch. -/
def parseMinAgeStr (s : String) : Except String ℚ :=
  parseMinAgeList s.data

/-- Input of `parseMinAge`: a JS value that is either already a number or
a string. -/
inductive MinAgeInput where
  | num (q : ℚ)
  | str (s : String)
deriving DecidableEq, Repr

/-- Embeds `parseMinAge` (src/bin/cli.js 160-175): a numeric input is
returned unchanged without validation; a string input goes through the
regex-based parser. -/
def parseMinAge : MinAgeInput → Except String ℚ
  | .num q => .ok q
  | .str s => parseMinAgeStr s

/-- Embeds the config-file merge of `minAge` (src/bin/cli.js 20-35): a
present `userConfig.minAge` is normalized through `parseMinAge` and
replaces the default; an absent one leaves the default. -/
def mergedMinAge (dflt : ℚ) (userMinAge : Option MinAgeInput) : Except String ℚ :=
  match userMinAge with
  | none => .ok dflt
  | some m => parseMinAge m

/-- Index of the last occurrence of `c` in `cs`, `-1` when absent
(JS `String.prototype.lastIndexOf`). -/
def lastIndexOfChar (cs : List Char) (c : Char) : Int :=
  match cs with
  | [] => -1
  | x :: xs =>
      let r := lastIndexOfChar xs c
      if 0 ≤ r then r + 1 else if x = c then 0 else -1

/-- Embeds `splitPkgSpec` (src/bin/cli.js 177-186): split a specifier at
the last `@` into name and range; a last `@` at index 0 (bare scoped
name) or no `@` at all yields no range.  The source's two branches (for
specs starting with `@` and not) are textually identical; both are
mirrored by the single conditional on the last index. -/
def splitPkgSpec (pkgSpec : String) : String × Option String :=
  let atIndex := lastIndexOfChar pkgSpec.data '@'
  match pkgSpec.data with
  | '@' :: _ =>
    if 0 < atIndex then
      (String.mk (pkgSpec.data.take atIndex.toNat),
       some (String.mk (pkgSpec.data.drop (atIndex.toNat + 1))))
    else (pkgSpec, none)
  | _ =>
    if 0 < atIndex then
      (String.mk (pkgSpec.data.take atIndex.toNat),
       some (String.mk (pkgSpec.data.drop (atIndex.toNat + 1))))
    else (pkgSpec, none)

deriving instance DecidableEq for Except

/-- Milliseconds per day, `1000 * 60 * 60 * 24` in the source. -/
def msPerDay : Int := 86400000

/-- Whole-day age of a publish instant:
`Math.floor((Date.now() - published) / 86400000)`; `Int.fdiv` is floor
division, matching `Math.floor` on negative quotients. -/
def ageDays (now published : Int) : Int := (now - published).fdiv msPerDay

/-- Registry metadata snapshot, as consumed by the resolver:
`Object.keys(meta.versions)` (here already parsed to `Version`) and the
`meta.time` map from version to publish instant (ms). -/
structure RegistryMeta where
  versions : List Version
  time : List (Version × Int)
deriving DecidableEq, Repr

/-- Lookup in the `meta.time` map (`time[v]`, `undefined` when absent). -/
def lookupTime : List (Version × Int) → Version → Option Int
  | [], _ => none
  | (v, p) :: r, w => if w = v then some p else lookupTime r w

/-- Embeds the candidate filter of `checkAndInstall` /
`resolveSafeVersion` / `checkAndUpdate` (src/bin/cli.js 499-505,
447-453, 205-211): keep the versions with a known publish date whose
whole-day age is at least `minAge`.  The threshold is a rational since
the duration parser can produce fractional day counts; the age compared
is the whole-day integer. -/
def candidates (meta : RegistryMeta) (now : Int) (minAge : ℚ) : List Version :=
  meta.versions.filter (fun v =>
    match lookupTime meta.time v with
    | none => false
    | some p => decide (minAge ≤ ((ageDays now p : Int) : ℚ)))

inductive ResolveError where
  | noCandidatesOldEnough
  | noVersionInRange
deriving DecidableEq, Repr

/-- Embeds the resolution core of `checkAndInstall` (src/bin/cli.js
497-523) and `resolveSafeVersion` (446-468): filter by age first; an
empty candidate set is the no-candidates-old-enough failure; with no
range take `semver.maxSatisfying(candidates, "*")`; with a range filter
the candidates by the range, an empty result being the
no-version-in-range failure, and take the highest remaining version.
The `match` fallbacks on `maxSatisfying` are unreachable: `*` keeps
every version, and the filtered lists are non-empty in those branches. -/
def resolveVersion (meta : RegistryMeta) (now : Int) (minAge : ℚ) :
    Option String → Except ResolveError Version
  | none =>
      if (candidates meta now minAge).isEmpty then .error .noCandidatesOldEnough
      else
        match maxSatisfying (candidates meta now minAge) .star with
        | some v => .ok v
        | none => .error .noCandidatesOldEnough
  | some rs =>
      if (candidates meta now minAge).isEmpty then .error .noCandidatesOldEnough
      else if ((candidates meta now minAge).filter (fun v => satisfiesStr rs v)).isEmpty then
        .error .noVersionInRange
      else
        match maxSatisfying ((candidates meta now minAge).filter (fun v => satisfiesStr rs v)) .star with
        | some v => .ok v
        | none => .error .noVersionInRange

/-- Age reported for the resolved version (src/bin/cli.js 525-527); the
lookup cannot miss for a version drawn from the candidate set. -/
def ageOf (meta : RegistryMeta) (now : Int) (v : Version) : Int :=
  match lookupTime meta.time v with
  | some p => ageDays now p
  | none => 0

/-- Embeds `severityObj` (src/bin/cli.js 294-299). -/
def severityObj (level : String) : Option Nat :=
  if level = "low" then some 1
  else if level = "moderate" then some 2
  else if level = "high" then some 3
  else if level = "critical" then some 4
  else none

/-- Embeds `getSeverityValue` (src/bin/cli.js 312):
`severityObj[level] || 1` — a missing or unknown severity defaults to
1 (`low`). -/
def getSeverityValue (level : Option String) : Nat :=
  match level.bind severityObj with
  | some v => v
  | none => 1

/-- Contributing issue object inside a finding's `via` array. -/
structure ViaObj where
  severity : Option String
  title : Option String
  url : Option String
deriving DecidableEq, Repr

/-- Entry of a finding's `via` array: either a bare identifier string
(a dependency name) or an issue object. -/
inductive ViaEntry where
  | str (s : String)
  | obj (o : ViaObj)
deriving DecidableEq, Repr

/-- Vulnerability finding for one package in the audit report. -/
structure Vuln where
  severity : Option String
  via : List ViaEntry
deriving DecidableEq, Repr

/-- Audit report consumed by the classifier: the `vulnerabilities`
object, keyed by package name. -/
structure AuditReport where
  vulnerabilities : List (String × Vuln)
deriving DecidableEq, Repr

def lookupVuln : List (String × Vuln) → String → Option Vuln
  | [], _ => none
  | (n, v) :: r, pkg => if pkg = n then some v else lookupVuln r pkg

/-- JS truthiness of the `severity` field: `undefined` and the empty
string are falsy. -/
def severityTruthy : Option String → Bool
  | none => false
  | some s => s ≠ ""

/-- Embeds the `via.reduce` accumulation (src/bin/cli.js 316-324): over
the `via` array, objects with a truthy `severity` contribute their
ordinal; bare identifier strings contribute nothing; the accumulator
starts at 0. -/
def viaSeverity (via : List ViaEntry) : Nat :=
  via.foldl (fun mx e =>
    match e with
    | .obj o =>
        if severityTruthy o.severity then
          if getSeverityValue o.severity > mx then getSeverityValue o.severity else mx
        else mx
    | .str _ => mx) 0

/-- Embeds `highestSeverity` (src/bin/cli.js 327):
`Math.max(vulnSeverity, viaSeverity)`. -/
def highestSeverity (vuln : Vuln) : Nat :=
  Nat.max (getSeverityValue vuln.severity) (viaSeverity vuln.via)

/-- Observable outcome of `checkVulnerabilities`: whether a findings
report was printed, whether the package was uninstalled, whether the
warn-mode proceed notice was printed, and whether the clean-bill status
was logged. -/
structure VulnAction where
  reported : Bool
  uninstalled : Bool
  warnedProceed : Bool
  cleanBill : Bool
deriving DecidableEq, Repr

/-- Embeds `checkVulnerabilities` (src/bin/cli.js 302-413; the catch
branch 358-412 repeats the same logic on the audit output of a non-zero
`npm audit` exit, so one pure function covers both): when the report
holds a finding for the package, the findings are printed
unconditionally, the package is uninstalled exactly when the mode is
`block` and the highest severity is at least 3, and the proceed warning
is printed exactly in `warn` mode; with no finding the clean bill is
logged and nothing else happens. -/
def checkVulnerabilities (mode : String) (audit : AuditReport) (pkg : String) : VulnAction :=
  match lookupVuln audit.vulnerabilities pkg with
  | some vuln =>
      { reported := true
        uninstalled := mode = "block" ∧ highestSeverity vuln ≥ 3
        warnedProceed := mode = "warn"
        cleanBill := false }
  | none =>
      { reported := false, uninstalled := false, warnedProceed := false, cleanBill := true }

/-- Policy configuration (the module-level `config` object,
src/bin/cli.js 13-18, after normalization). -/
structure Policy where
  minAge : ℚ
  mode : String
  exclude : List String
  exactInstall : Bool

/-- Outcome of `checkAndInstall` for one specifier: the exclusion bypass
installs the original specifier as given; a resolution failure exits
with an error; otherwise the resolved version is installed and the
vulnerability check runs on it. -/
inductive InstallOutcome where
  | installedAsGiven (spec : String)
  | rejected (pkg : String) (e : ResolveError)
  | installed (pkg : String) (v : Version) (age : Int) (act : VulnAction)
deriving DecidableEq, Repr

/-- Embeds `checkAndInstall` (src/bin/cli.js 480-535): split the
specifier; an excluded package is installed as given with no metadata
fetch, no age or range filtering and no vulnerability check; otherwise
resolve under the age policy and range, install the resolved version and
classify vulnerabilities.  The registry fetch is reflected as the
`meta` input (`config.minAge || 0` equals `minAge` on rationals, `0`
being the only falsy value). -/
def checkAndInstall (policy : Policy) (meta : RegistryMeta) (audit : AuditReport)
    (now : Int) (pkgSpec : String) : InstallOutcome :=
  let pkg := (splitPkgSpec pkgSpec).1
  let versionRange := (splitPkgSpec pkgSpec).2
  if pkg ∈ policy.exclude then .installedAsGiven pkgSpec
  else
    match resolveVersion meta now policy.minAge versionRange with
    | .error e => .rejected pkg e
    | .ok v => .installed pkg v (ageOf meta now v) (checkVulnerabilities policy.mode audit pkg)

/-- Result of the `run` batch (src/bin/cli.js 538-547): either the fatal
invalid-mode configuration error, raised before any package is touched,
or the per-package outcomes in order. -/
inductive BatchResult where
  | invalidMode (mode : String)
  | completed (outcomes : List InstallOutcome)
deriving DecidableEq, Repr

def validModes : List String := ["block", "warn", "off"]

/-- Embeds `run` (src/bin/cli.js 538-547): validate the mode once, then
process the packages sequentially. -/
def run (policy : Policy) (meta : RegistryMeta) (audit : AuditReport) (now : Int)
    (packages : List String) : BatchResult :=
  if ¬ validModes.contains policy.mode then .invalidMode policy.mode
  else .completed (packages.map (checkAndInstall policy meta audit now))

/-- Outcome of `checkAndUpdate` for one package name. -/
inductive UpdateOutcome where
  | installedLatestUnvalidated (pkg : String)
  | noCandidates (pkg : String)
  | couldNotResolve (pkg : String)
  | alreadyInstalled (pkg : String) (v : Version)
  | updated (pkg : String) (v : Version) (act : VulnAction)
deriving DecidableEq, Repr

/-- Embeds `checkAndUpdate` (src/bin/cli.js 188-239): an excluded
package is npm-installed at `latest` with no validation; otherwise the
age-filtered candidates are computed, the highest candidate chosen, an
already-installed equal version is left alone, and otherwise the package
is updated and the vulnerability check runs. -/
def checkAndUpdate (policy : Policy) (meta : RegistryMeta) (audit : AuditReport)
    (now : Int) (installedVersion : String → Option Version) (pkg : String) :
    UpdateOutcome :=
  if pkg ∈ policy.exclude then .installedLatestUnvalidated pkg
  else
    let cands := candidates meta now policy.minAge
    if cands.isEmpty then .noCandidates pkg
    else
      match maxSatisfying cands .star with
      | none => .couldNotResolve pkg
      | some v =>
          match installedVersion pkg with
          | some iv =>
              if iv = v then .alreadyInstalled pkg v
              else .updated pkg v (checkVulnerabilities policy.mode audit pkg)
          | none => .updated pkg v (checkVulnerabilities policy.mode audit pkg)

/-- Embeds the batch loop of `Update` (src/bin/cli.js 254-292): the
packages are processed sequentially with `checkAndUpdate`; unlike `run`,
no mode validation is performed anywhere in this flow. -/
def UpdateRun (policy : Policy) (meta : RegistryMeta) (audit : AuditReport) (now : Int)
    (installedVersion : String → Option Version) (packages : List String) :
    List UpdateOutcome :=
  packages.map (checkAndUpdate policy meta audit now installedVersion)

/-- Version `1.0.0` of the end-to-end scenario. -/
def v100 : Version := ⟨1, 0, 0, []⟩

/-- Version `1.1.0` of the end-to-end scenario. -/
def v110 : Version := ⟨1, 1, 0, []⟩

/-- Clock instant of the end-to-end scenario: day 1000. -/
def scNow : Int := 1000 * msPerDay

/-- Metadata of the end-to-end scenario: `1.0.0` published 40 days ago
(day 960), `1.1.0` published 5 days ago (day 995). -/
def scMeta : RegistryMeta :=
  ⟨[v100, v110], [(v100, 960 * msPerDay), (v110, 995 * msPerDay)]⟩

/-- Spec-side reading of "nested contributing issues that declare a
severity": the ordinal of a `via` entry that is an object with a truthy
severity, nothing for bare identifiers or objects without one. -/
def declaredSeverity : ViaEntry → Option Nat
  | .obj o => if severityTruthy o.severity then some (getSeverityValue o.severity) else none
  | .str _ => none

/-- Regex `^\d+$` of the duration parser, read as a predicate on the
input string. -/
def matchesBareInt (s : String) : Prop :=
  s.data ≠ [] ∧ s.data.all Char.isDigit = true

/-- Regex `^(\d+)(d|w|m|h|hs)$` with case-insensitive matching, read as
a predicate on the input string: some decomposition into a non-empty
digit prefix and a unit suffix whose lowercasing is one of the five
units. -/
def matchesUnitPat (s : String) : Prop :=
  ∃ ds sfx, s.data = ds ++ sfx ∧ ds ≠ [] ∧ ds.all Char.isDigit = true ∧
    sfx.map Char.toLower ∈ [['d'], ['w'], ['m'], ['h'], ['h', 's']]

/-- Policy with an exclusion entry, used to witness the exclusion
bypass. -/
def exPolicy : Policy := ⟨30, "block", ["lodash"], false⟩

/-- Policy whose mode `"blok"` is not one of `block`, `warn`, `off`. -/
def badModePolicy : Policy := ⟨0, "blok", ["left-pad"], false⟩

def emptyAudit : AuditReport := ⟨[]⟩

/-- Finding with a critical direct severity and one critical contributing
issue, keyed under `left-pad`. -/
def offFinding : Vuln :=
  ⟨some "critical", [.obj ⟨some "critical", some "advisory", some "https://example.test/a"⟩]⟩

def offAudit : AuditReport := ⟨[("left-pad", offFinding)]⟩

/-- Metadata with a version that has no publish timestamp. -/
def noTimeMeta : RegistryMeta := ⟨[v110], []⟩

theorem vle_refl (a : Version) : vle a a := le_refl _

theorem vle_trans {a b c : Version} (h1 : vle a b) (h2 : vle b c) : vle a c :=
  le_trans h1 h2

theorem vle_total (a b : Version) : vle a b ∨ vle b a := le_total _ _

theorem maxFrom_cons (m x : Version) (xs : List Version) :
    maxFrom m (x :: xs) = maxFrom (if vle m x then x else m) xs := rfl

theorem maxFrom_mem (l : List Version) : ∀ m, maxFrom m l = m ∨ maxFrom m l ∈ l := by
  induction l with
  | nil => intro m; exact Or.inl rfl
  | cons x xs ih =>
      intro m
      rw [maxFrom_cons]
      by_cases h : vle m x
      · rw [if_pos h]
        rcases ih x with h1 | h1
        · exact Or.inr (by rw [h1]; exact List.mem_cons_self x xs)
        · exact Or.inr (List.mem_cons_of_mem x h1)
      · rw [if_neg h]
        rcases ih m with h1 | h1
        · exact Or.inl h1
        · exact Or.inr (List.mem_cons_of_mem x h1)

theorem maxFrom_ge (l : List Version) :
    ∀ m, vle m (maxFrom m l) ∧ ∀ v ∈ l, vle v (maxFrom m l) := by
  induction l with
  | nil => intro m; exact ⟨vle_refl m, by intro v hv; cases hv⟩
  | cons x xs ih =>
      intro m
      rw [maxFrom_cons]
      by_cases h : vle m x
      · rw [if_pos h]
        refine ⟨vle_trans h (ih x).1, ?_⟩
        intro v hv
        rcases List.mem_cons.mp hv with rfl | hv
        · exact (ih v).1
        · exact (ih x).2 v hv
      · rw [if_neg h]
        refine ⟨(ih m).1, ?_⟩
        intro v hv
        rcases List.mem_cons.mp hv with rfl | hv
        · rcases vle_total v m with h1 | h1
          · exact vle_trans h1 (ih m).1
          · exact absurd h1 h
        · exact (ih m).2 v hv

theorem maxSatisfying_mem {vs : List Version} {r : SemverRange} {v : Version}
    (h : maxSatisfying vs r = some v) : v ∈ vs.filter (fun w => satisfies r w) := by
  unfold maxSatisfying at h
  rcases hf : vs.filter (fun w => satisfies r w) with _ | ⟨x, xs⟩
  · rw [hf] at h; cases h
  · rw [hf] at h
    injection h with h
    rcases maxFrom_mem xs x with h1 | h1
    · have hvx : v = x := by rw [← h, h1]
      rw [hvx]; exact List.mem_cons_self x xs
    · rw [← h]; exact List.mem_cons_of_mem x h1

theorem maxSatisfying_ge {vs : List Version} {r : SemverRange} {v : Version}
    (h : maxSatisfying vs r = some v) :
    ∀ w ∈ vs.filter (fun w => satisfies r w), vle w v := by
  unfold maxSatisfying at h
  rcases hf : vs.filter (fun w => satisfies r w) with _ | ⟨x, xs⟩
  · rw [hf] at h; cases h
  · rw [hf] at h
    injection h with h
    intro w hw
    rcases List.mem_cons.mp hw with rfl | hw
    · exact h ▸ (maxFrom_ge xs w).1
    · exact h ▸ (maxFrom_ge xs x).2 w hw

theorem satisfies_star (v : Version) : satisfies .star v = true := rfl

theorem filter_star (vs : List Version) :
    vs.filter (fun w => satisfies .star w) = vs :=
  List.filter_eq_self.mpr (fun _ _ => rfl)

theorem mem_candidates (meta : RegistryMeta) (now : Int) (minAge : ℚ) (v : Version) :
    v ∈ candidates meta now minAge ↔
      v ∈ meta.versions ∧ ∃ p, lookupTime meta.time v = some p ∧
        minAge ≤ ((ageDays now p : Int) : ℚ) := by
  unfold candidates
  rw [List.mem_filter]
  constructor
  · rintro ⟨hm, hp⟩
    refine ⟨hm, ?_⟩
    rcases hl : lookupTime meta.time v with _ | p
    · rw [hl] at hp; cases hp
    · rw [hl] at hp
      exact ⟨p, rfl, of_decide_eq_true hp⟩
  · rintro ⟨hm, p, hl, hle⟩
    refine ⟨hm, ?_⟩
    rw [hl]
    exact decide_eq_true hle

theorem resolveVersion_of_empty (meta : RegistryMeta) (now : Int) (minAge : ℚ)
    (range : Option String) (h : candidates meta now minAge = []) :
    resolveVersion meta now minAge range = .error .noCandidatesOldEnough := by
  cases range with
  | none => unfold resolveVersion; rw [h]; rfl
  | some rs => unfold resolveVersion; rw [h]; rfl

theorem resolveVersion_ok_mem {meta : RegistryMeta} {now : Int} {minAge : ℚ}
    {range : Option String} {v : Version}
    (h : resolveVersion meta now minAge range = .ok v) :
    v ∈ candidates meta now minAge ∧
      ∀ rs, range = some rs → satisfiesStr rs v = true := by
  cases range with
  | none =>
      unfold resolveVersion at h
      by_cases hc : (candidates meta now minAge).isEmpty
      · rw [if_pos hc] at h; cases h
      · rw [if_neg hc] at h
        rcases hm : maxSatisfying (candidates meta now minAge) .star with _ | w
        · rw [hm] at h; cases h
        · rw [hm] at h
          injection h with h
          subst h
          have hmem := maxSatisfying_mem hm
          rw [filter_star] at hmem
          exact ⟨hmem, by intro rs hrs; cases hrs⟩
  | some rs =>
      simp only [resolveVersion] at h
      by_cases hc : (candidates meta now minAge).isEmpty
      · rw [if_pos hc] at h; cases h
      · rw [if_neg hc] at h
        by_cases hr :
            ((candidates meta now minAge).filter (fun w => satisfiesStr rs w)).isEmpty
        · rw [if_pos hr] at h; cases h
        · rw [if_neg hr] at h
          rcases hm : maxSatisfying
              ((candidates meta now minAge).filter (fun w => satisfiesStr rs w)) .star
            with _ | w
          · rw [hm] at h; cases h
          · rw [hm] at h
            injection h with h
            subst h
            have hmem := maxSatisfying_mem hm
            rw [filter_star] at hmem
            have hmem2 := List.mem_filter.mp hmem
            refine ⟨hmem2.1, ?_⟩
            intro rs2 hrs2
            injection hrs2 with hrs2
            rw [← hrs2]
            exact hmem2.2

theorem resolveVersion_none_max (meta : RegistryMeta) (now : Int) (minAge : ℚ)
    (h : candidates meta now minAge ≠ []) :
    ∃ v, resolveVersion meta now minAge none = .ok v ∧
      v ∈ candidates meta now minAge ∧ ∀ w ∈ candidates meta now minAge, vle w v := by
  rcases hx : (candidates meta now minAge).filter (fun w => satisfies .star w)
    with _ | ⟨x, xs⟩
  · rw [filter_star] at hx; exact absurd hx h
  · have hms : maxSatisfying (candidates meta now minAge) .star = some (maxFrom x xs) := by
      unfold maxSatisfying; rw [hx]
    refine ⟨maxFrom x xs, ?_, ?_, ?_⟩
    · unfold resolveVersion
      rw [if_neg (by simp only [List.isEmpty_iff]; exact h), hms]
    · have hmem := maxSatisfying_mem hms
      rw [filter_star] at hmem
      exact hmem
    · intro w hw
      have hge := maxSatisfying_ge hms
      rw [filter_star] at hge
      exact hge w hw

theorem viaSeverity_foldl (l : List ViaEntry) :
    ∀ mx : Nat,
      l.foldl (fun mx e =>
        match e with
        | .obj o =>
            if severityTruthy o.severity then
              if getSeverityValue o.severity > mx then getSeverityValue o.severity else mx
            else mx
        | .str _ => mx) mx
      = Nat.max mx ((l.filterMap declaredSeverity).foldr Nat.max 0) := by
  induction l with
  | nil => intro mx; simp
  | cons e l ih =>
      intro mx
      cases e with
      | str s =>
          simp only [List.foldl_cons, List.filterMap_cons, declaredSeverity]
          exact ih mx
      | obj o =>
          by_cases ht : severityTruthy o.severity
          · simp only [List.foldl_cons, List.filterMap_cons, declaredSeverity, ht,
              if_pos, List.foldr_cons]
            rw [ih]
            by_cases h2 : getSeverityValue o.severity > mx
            · rw [if_pos h2]
              exact (Nat.max_eq_right (le_trans (Nat.le_of_lt h2) (Nat.le_max_left _ _))).symm
            · rw [if_neg h2]
              have hle : getSeverityValue o.severity ≤ mx := Nat.le_of_not_lt h2
              exact Nat.le_antisymm
                (Nat.max_le.mpr ⟨Nat.le_max_left _ _,
                  le_trans (Nat.le_max_right _ _) (Nat.le_max_right _ _)⟩)
                (Nat.max_le.mpr ⟨Nat.le_max_left _ _,
                  Nat.max_le.mpr ⟨le_trans hle (Nat.le_max_left _ _), Nat.le_max_right _ _⟩⟩)
          · simp only [List.foldl_cons, List.filterMap_cons, declaredSeverity, ht,
              if_neg, Bool.false_eq_true, if_false]
            exact ih mx

theorem viaSeverity_eq_max (via : List ViaEntry) :
    viaSeverity via = (via.filterMap declaredSeverity).foldr Nat.max 0 := by
  unfold viaSeverity
  rw [viaSeverity_foldl]
  exact Nat.max_eq_right (Nat.zero_le _)

theorem prerelease_below_release (m mi p : Nat) (pre : List PreId) (h : pre ≠ []) :
    vlt ⟨m, mi, p, pre⟩ ⟨m, mi, p, []⟩ := by
  unfold vlt Version.key
  rw [Prod.Lex.lt_iff]
  right
  refine ⟨rfl, ?_⟩
  rw [Prod.Lex.lt_iff]
  right
  refine ⟨rfl, ?_⟩
  rw [Prod.Lex.lt_iff]
  right
  refine ⟨rfl, ?_⟩
  cases pre with
  | nil => exact absurd rfl h
  | cons x xs => exact WithTop.coe_lt_top _

theorem candidates_all_of_minAge_zero (meta : RegistryMeta) (now : Int)
    (h : ∀ v ∈ meta.versions, ∃ t, lookupTime meta.time v = some t ∧ t ≤ now) :
    candidates meta now 0 = meta.versions := by
  unfold candidates
  apply List.filter_eq_self.mpr
  intro v hv
  rcases h v hv with ⟨t, hl, ht⟩
  rw [hl]
  apply decide_eq_true
  have h0 : (0 : Int) ≤ ageDays now t := by
    unfold ageDays
    exact Int.fdiv_nonneg (by omega) (by decide)
  exact_mod_cast h0

theorem all_takeWhile (p : Char → Bool) (l : List Char) :
    (l.takeWhile p).all p = true := by
  induction l with
  | nil => rfl
  | cons c l ih =>
      rw [List.takeWhile_cons]
      by_cases h : p c
      · rw [if_pos h]
        simp [List.all_cons, h, ih]
      · rw [if_neg h]
        rfl

theorem takeWhile_all_append (p : Char → Bool) (ds r : List Char) (c : Char)
    (h : ds.all p = true) (hc : p c = false) :
    ((ds ++ c :: r).takeWhile p) = ds := by
  induction ds with
  | nil => simp [List.takeWhile_cons, hc]
  | cons d ds ih =>
      rw [List.all_cons, Bool.and_eq_true] at h
      simp only [List.cons_append, List.takeWhile_cons, h.1, if_pos]
      rw [ih h.2]

theorem dropWhile_all_append (p : Char → Bool) (ds r : List Char) (c : Char)
    (h : ds.all p = true) (hc : p c = false) :
    ((ds ++ c :: r).dropWhile p) = c :: r := by
  induction ds with
  | nil => simp [List.dropWhile_cons, hc]
  | cons d ds ih =>
      rw [List.all_cons, Bool.and_eq_true] at h
      simp only [List.cons_append, List.dropWhile_cons, h.1, if_pos]
      exact ih h.2

theorem dropWhile_head_false (p : Char → Bool) (l : List Char) (c : Char) (r : List Char)
    (h : l.dropWhile p = c :: r) : p c = false := by
  induction l with
  | nil => cases h
  | cons d l ih =>
      rw [List.dropWhile_cons] at h
      by_cases hd : p d
      · rw [if_pos hd] at h; exact ih h
      · rw [if_neg hd] at h
        injection h with h1 _
        rw [← h1]
        exact eq_false_of_ne_true hd


theorem parseMinAgeList_digits (ds : List Char) (hds : ds ≠ [])
    (hall : ds.all Char.isDigit = true) :
    parseMinAgeList ds = .ok ((natOfDigits ds : ℚ)) := by
  have h1 : (!ds.isEmpty && ds.all Char.isDigit) = true := by
    rw [Bool.and_eq_true, Bool.not_eq_true', List.isEmpty_eq_false]
    exact ⟨hds, hall⟩
  unfold parseMinAgeList
  rw [if_pos h1]

theorem parseMinAgeList_split (ds r : List Char) (c : Char) (hds : ds ≠ [])
    (hall : ds.all Char.isDigit = true) (hc : Char.isDigit c = false) :
    parseMinAgeList (ds ++ c :: r) =
      (if (c :: r).map Char.toLower = ['d'] then
        .ok ((natOfDigits ds : ℚ))
      else if (c :: r).map Char.toLower = ['w'] then
        .ok (7 * (natOfDigits ds : ℚ))
      else if (c :: r).map Char.toLower = ['m'] then
        .ok (30 * (natOfDigits ds : ℚ))
      else if (c :: r).map Char.toLower = ['h'] then
        .ok ((natOfDigits ds : ℚ) / 24)
      else if (c :: r).map Char.toLower = ['h', 's'] then
        .ok ((natOfDigits ds : ℚ) / 24)
      else .error ("Invalid format for minAge: " ++ String.mk (ds ++ c :: r))) := by
  have hfirst : (!(ds ++ c :: r).isEmpty && (ds ++ c :: r).all Char.isDigit) = false := by
    simp [List.all_append, List.all_cons, hc]
  have htk := takeWhile_all_append Char.isDigit ds r c hall hc
  have hdr := dropWhile_all_append Char.isDigit ds r c hall hc
  unfold parseMinAgeList
  rw [if_neg (by rw [hfirst]; exact Bool.false_ne_true), htk, hdr,
    if_neg (by rw [List.isEmpty_iff]; exact hds)]

theorem parseMinAgeStr_fail (s : String) (h1 : ¬ matchesBareInt s)
    (h2 : ¬ matchesUnitPat s) :
    parseMinAgeStr s = .error ("Invalid format for minAge: " ++ s) := by
  unfold parseMinAgeStr parseMinAgeList
  have hf : ¬ ((!s.data.isEmpty && s.data.all Char.isDigit) = true) := by
    intro h
    rw [Bool.and_eq_true, Bool.not_eq_true', List.isEmpty_eq_false] at h
    exact h1 ⟨h.1, h.2⟩
  rw [if_neg hf]
  by_cases hds : (s.data.takeWhile Char.isDigit).isEmpty
  · rw [if_pos hds]
  · rw [if_neg hds]
    have hne : s.data.takeWhile Char.isDigit ≠ [] := by
      intro h
      rw [h] at hds
      exact hds rfl
    have hsplit : s.data = s.data.takeWhile Char.isDigit ++ s.data.dropWhile Char.isDigit :=
      (List.takeWhile_append_dropWhile Char.isDigit s.data).symm
    have hall := all_takeWhile Char.isDigit s.data
    have hnot : ∀ u ∈ [['d'], ['w'], ['m'], ['h'], ['h', 's']],
        (s.data.dropWhile Char.isDigit).map Char.toLower ≠ u := by
      intro u hu heq
      exact h2 ⟨_, _, hsplit, hne, hall, by rw [heq]; exact hu⟩
    rw [if_neg (hnot ['d'] (by simp)), if_neg (hnot ['w'] (by simp)),
      if_neg (hnot ['m'] (by simp)), if_neg (hnot ['h'] (by simp)),
      if_neg (hnot ['h', 's'] (by simp))]

theorem parseMinAgeList_nonneg (cs : List Char) (q : ℚ)
    (h : parseMinAgeList cs = .ok q) : 0 ≤ q := by
  unfold parseMinAgeList at h
  split at h
  · injection h with h
    subst h
    positivity
  · split at h
    · cases h
    · split at h
      · injection h with h
        subst h
        positivity
      · split at h
        · injection h with h
          subst h
          positivity
        · split at h
          · injection h with h
            subst h
            positivity
          · split at h
            · injection h with h
              subst h
              positivity
            · split at h
              · injection h with h
                subst h
                positivity
              · cases h

/-- C8: the duration parser, on string inputs, returns the value
unchanged for a bare integer or a `d` suffix, value times 7 for `w`,
value times 30 for `m`, value divided by 24 for `h` or `hs`, with the
suffix matched case-insensitively; it fails with the invalid-format
error for any string matching neither regex; the five documented
examples hold; and a string input never parses to a negative value. -/
theorem duration_parser_rules :
    (∀ ds : List Char, ds ≠ [] → ds.all Char.isDigit = true →
        parseMinAgeStr (String.mk ds) = .ok ((natOfDigits ds : ℚ)) ∧
        parseMinAgeStr (String.mk (ds ++ ['d'])) = .ok ((natOfDigits ds : ℚ)) ∧
        parseMinAgeStr (String.mk (ds ++ ['D'])) = .ok ((natOfDigits ds : ℚ)) ∧
        parseMinAgeStr (String.mk (ds ++ ['w'])) = .ok (7 * (natOfDigits ds : ℚ)) ∧
        parseMinAgeStr (String.mk (ds ++ ['W'])) = .ok (7 * (natOfDigits ds : ℚ)) ∧
        parseMinAgeStr (String.mk (ds ++ ['m'])) = .ok (30 * (natOfDigits ds : ℚ)) ∧
        parseMinAgeStr (String.mk (ds ++ ['M'])) = .ok (30 * (natOfDigits ds : ℚ)) ∧
        parseMinAgeStr (String.mk (ds ++ ['h'])) = .ok ((natOfDigits ds : ℚ) / 24) ∧
        parseMinAgeStr (String.mk (ds ++ ['H'])) = .ok ((natOfDigits ds : ℚ) / 24) ∧
        parseMinAgeStr (String.mk (ds ++ ['h', 's'])) = .ok ((natOfDigits ds : ℚ) / 24) ∧
        parseMinAgeStr (String.mk (ds ++ ['H', 'S'])) = .ok ((natOfDigits ds : ℚ) / 24))
    ∧ (∀ s : String, ¬ matchesBareInt s → ¬ matchesUnitPat s →
        parseMinAgeStr s = .error ("Invalid format for minAge: " ++ s))
    ∧ (∀ (s : String) (q : ℚ), parseMinAgeStr s = .ok q → 0 ≤ q)
    ∧ parseMinAgeStr "30" = .ok 30
    ∧ parseMinAgeStr "2w" = .ok 14
    ∧ parseMinAgeStr "3m" = .ok 90
    ∧ parseMinAgeStr "24h" = .ok 1
    ∧ parseMinAgeStr "24hs" = .ok 1 := by
  refine ⟨?_, parseMinAgeStr_fail, fun s q h => parseMinAgeList_nonneg s.data q h,
    ?_, ?_, ?_, ?_, ?_⟩
  · intro ds hds hall
    refine ⟨parseMinAgeList_digits ds hds hall, ?_, ?_, ?_, ?_, ?_, ?_, ?_, ?_, ?_, ?_⟩
    · show parseMinAgeList (ds ++ ['d']) = _
      rw [parseMinAgeList_split ds [] 'd' hds hall (by decide)]
      rfl
    · show parseMinAgeList (ds ++ ['D']) = _
      rw [parseMinAgeList_split ds [] 'D' hds hall (by decide)]
      rfl
    · show parseMinAgeList (ds ++ ['w']) = _
      rw [parseMinAgeList_split ds [] 'w' hds hall (by decide)]
      rfl
    · show parseMinAgeList (ds ++ ['W']) = _
      rw [parseMinAgeList_split ds [] 'W' hds hall (by decide)]
      rfl
    · show parseMinAgeList (ds ++ ['m']) = _
      rw [parseMinAgeList_split ds [] 'm' hds hall (by decide)]
      rfl
    · show parseMinAgeList (ds ++ ['M']) = _
      rw [parseMinAgeList_split ds [] 'M' hds hall (by decide)]
      rfl
    · show parseMinAgeList (ds ++ ['h']) = _
      rw [parseMinAgeList_split ds [] 'h' hds hall (by decide)]
      rfl
    · show parseMinAgeList (ds ++ ['H']) = _
      rw [parseMinAgeList_split ds [] 'H' hds hall (by decide)]
      rfl
    · show parseMinAgeList (ds ++ ['h', 's']) = _
      rw [parseMinAgeList_split ds ['s'] 'h' hds hall (by decide)]
      rfl
    · show parseMinAgeList (ds ++ ['H', 'S']) = _
      rw [parseMinAgeList_split ds ['S'] 'H' hds hall (by decide)]
      rfl
  · show Except.ok ((natOfDigits ['3', '0'] : ℚ)) = Except.ok 30
    norm_num [show natOfDigits ['3', '0'] = 30 from rfl]
  · show Except.ok (7 * (natOfDigits ['2'] : ℚ)) = Except.ok 14
    norm_num [show natOfDigits ['2'] = 2 from rfl]
  · show Except.ok (30 * (natOfDigits ['3'] : ℚ)) = Except.ok 90
    norm_num [show natOfDigits ['3'] = 3 from rfl]
  · show Except.ok ((natOfDigits ['2', '4'] : ℚ) / 24) = Except.ok 1
    norm_num [show natOfDigits ['2', '4'] = 24 from rfl]
  · show Except.ok ((natOfDigits ['2', '4'] : ℚ) / 24) = Except.ok 1
    norm_num [show natOfDigits ['2', '4'] = 24 from rfl]

/-- Witness for C8 at a concrete input: `parse("7w") = 49`. -/
theorem duration_parser_rules_witness :
    parseMinAgeStr (String.mk (['7'] ++ ['w'])) = .ok (7 * (natOfDigits ['7'] : ℚ)) :=
  ((duration_parser_rules.1 ['7'] (by decide) (by decide)).2.2.2.1)

/-- C9: the specifier splitter locates the last `@`; when that index is
not positive (bare scoped name, or no `@` at all) the input is returned
with no range, otherwise the string is split there into name and range;
including the four documented examples. -/
theorem specifier_split_rules :
    (∀ s : String, lastIndexOfChar s.data '@' ≤ 0 → splitPkgSpec s = (s, none))
    ∧ (∀ (s : String) (i : Int), lastIndexOfChar s.data '@' = i → 0 < i →
        splitPkgSpec s =
          (String.mk (s.data.take i.toNat), some (String.mk (s.data.drop (i.toNat + 1)))))
    ∧ splitPkgSpec "@scope/pkg" = ("@scope/pkg", none)
    ∧ splitPkgSpec "@scope/pkg@1.2.3" = ("@scope/pkg", some "1.2.3")
    ∧ splitPkgSpec "lodash@^4.0.0" = ("lodash", some "^4.0.0")
    ∧ splitPkgSpec "lodash" = ("lodash", none) := by
  refine ⟨?_, ?_, by decide, by decide, by decide, by decide⟩
  · intro s h
    unfold splitPkgSpec
    split
    · rw [if_neg (by omega)]
    · rw [if_neg (by omega)]
  · intro s i hi hpos
    unfold splitPkgSpec
    split
    · rw [if_pos (by omega), hi]
    · rw [if_pos (by omega), hi]

/-- Witness for C9 at a concrete input: `@scope/a@2` splits at the last
`@` (index 8). -/
theorem specifier_split_rules_witness :
    splitPkgSpec "@scope/a@2" =
      (String.mk ("@scope/a@2".data.take (Int.toNat 8)),
       some (String.mk ("@scope/a@2".data.drop (Int.toNat 8 + 1)))) :=
  specifier_split_rules.2.1 "@scope/a@2" 8 (by decide) (by decide)

/-- C10: a numeric (already-parsed) input passes through the duration
parser unchanged with no validation — negative and fractional values
included — so a negative numeric `minAge` from the config file becomes
the effective threshold, and re-normalizing an already-numeric day count
is the identity. -/
theorem numeric_min_age_unvalidated :
    (∀ q : ℚ, parseMinAge (.num q) = .ok q)
    ∧ (∀ dflt q : ℚ, mergedMinAge dflt (some (.num q)) = .ok q)
    ∧ mergedMinAge 0 (some (.num (-30))) = .ok (-30)
    ∧ mergedMinAge 0 (some (.num (1 / 2))) = .ok (1 / 2)
    ∧ (∀ (i : MinAgeInput) (q : ℚ), parseMinAge i = .ok q → parseMinAge (.num q) = .ok q) :=
  ⟨fun _ => rfl, fun _ _ => rfl, rfl, rfl, fun _ _ _ => rfl⟩

/-- Witness for C10 at a concrete input: the numeric value `-5` passes
through unchanged. -/
theorem numeric_min_age_unvalidated_witness :
    parseMinAge (.num (-5)) = .ok (-5) :=
  numeric_min_age_unvalidated.2.2.2.2 (.num (-5)) (-5) rfl

/-- C1: the resolver applies the age filter before the range filter — a
version it resolves always lies in the age-filtered candidate set and
satisfies the requested range, so a range-satisfying but too-new version
is never chosen; in the end-to-end scenario (1.0.0 published 40 days
ago, 1.1.0 published 5 days ago, minAgeDays 30) the range `^1.1.0` fails
with the no-version-in-range error, while a null range resolves 1.0.0
with age 40. -/
theorem age_filter_before_range :
    (∀ (meta : RegistryMeta) (now : Int) (minAge : ℚ) (range : Option String) (v : Version),
        resolveVersion meta now minAge range = .ok v →
          v ∈ candidates meta now minAge ∧
            ∀ rs, range = some rs → satisfiesStr rs v = true)
    ∧ resolveVersion scMeta scNow 30 (some "^1.1.0") = .error .noVersionInRange
    ∧ resolveVersion scMeta scNow 30 none = .ok v100
    ∧ ageOf scMeta scNow v100 = 40 :=
  ⟨fun _ _ _ _ _ h => resolveVersion_ok_mem h, by decide, by decide, by decide⟩

/-- Witness for C1: in the scenario with threshold 30, the resolved
version 1.0.0 is a member of the age-filtered candidate set. -/
theorem age_filter_before_range_witness :
    v100 ∈ candidates scMeta scNow 30 :=
  (age_filter_before_range.1 scMeta scNow 30 none v100 (by decide)).1

/-- C2, failing input: with mode `off` and a finding present for the
package, `checkVulnerabilities` still prints the findings report
(`reported = true`) while leaving the package installed; the claim (and
the README, which says mode `off` hides vulnerability logs) requires no
report at all in this cell of the table. -/
theorem off_mode_still_reports :
    (checkVulnerabilities "off" offAudit "left-pad").reported = true ∧
    (checkVulnerabilities "off" offAudit "left-pad").uninstalled = false ∧
    highestSeverity offFinding = 4 := by decide

/-- C3: with a null range the resolver picks the greatest candidate
under semantic-version precedence; a pre-release ranks strictly below
its corresponding release; and with threshold 0 every version published
no later than `now` is a candidate, so the candidate set is the whole
version list. -/
theorem null_range_resolves_highest :
    (∀ (meta : RegistryMeta) (now : Int) (minAge : ℚ),
        candidates meta now minAge ≠ [] →
          ∃ v, resolveVersion meta now minAge none = .ok v ∧
            v ∈ candidates meta now minAge ∧ ∀ w ∈ candidates meta now minAge, vle w v)
    ∧ (∀ (m mi p : Nat) (pre : List PreId), pre ≠ [] → vlt ⟨m, mi, p, pre⟩ ⟨m, mi, p, []⟩)
    ∧ (∀ (meta : RegistryMeta) (now : Int),
        (∀ v ∈ meta.versions, ∃ t, lookupTime meta.time v = some t ∧ t ≤ now) →
          candidates meta now 0 = meta.versions) :=
  ⟨resolveVersion_none_max, prerelease_below_release, candidates_all_of_minAge_zero⟩

/-- Witness for C3: in the scenario with threshold 0 the candidate set
is the full version list. -/
theorem null_range_resolves_highest_witness :
    candidates scMeta scNow 0 = scMeta.versions := by
  apply null_range_resolves_highest.2.2 scMeta scNow
  intro v hv
  rcases List.mem_cons.mp hv with rfl | hv
  · exact ⟨960 * msPerDay, by decide, by decide⟩
  · rcases List.mem_cons.mp hv with rfl | hv
    · exact ⟨995 * msPerDay, by decide, by decide⟩
    · cases hv

/-- C4: a package on the exclusion list bypasses resolution entirely:
the outcome is installing the original specifier as given, independent
of the registry metadata, the audit report and the clock — so no age
filtering, range filtering or vulnerability classification happens. -/
theorem excluded_bypasses_resolution (policy : Policy) (meta : RegistryMeta)
    (audit : AuditReport) (now : Int) (pkgSpec : String)
    (h : (splitPkgSpec pkgSpec).1 ∈ policy.exclude) :
    checkAndInstall policy meta audit now pkgSpec = .installedAsGiven pkgSpec := by
  unfold checkAndInstall
  rw [if_pos h]

/-- Witness for C4: `lodash@^4.0.0` with `lodash` excluded is installed
as given. -/
theorem excluded_bypasses_resolution_witness :
    checkAndInstall exPolicy scMeta offAudit scNow "lodash@^4.0.0" =
      .installedAsGiven "lodash@^4.0.0" :=
  excluded_bypasses_resolution exPolicy scMeta offAudit scNow "lodash@^4.0.0" (by decide)

/-- C5: the candidate set is exactly the versions with a known publish
timestamp whose whole-day age (floor of the millisecond difference over
86,400,000) is at least the threshold; a version without a publish
timestamp is never a candidate; and an empty candidate set makes the
resolver fail with the no-candidates-old-enough error. -/
theorem candidate_set_characterization :
    (∀ (meta : RegistryMeta) (now : Int) (minAge : ℚ) (v : Version),
        v ∈ candidates meta now minAge ↔
          v ∈ meta.versions ∧ ∃ p, lookupTime meta.time v = some p ∧
            minAge ≤ ((ageDays now p : Int) : ℚ))
    ∧ (∀ (meta : RegistryMeta) (now : Int) (minAge : ℚ) (v : Version),
        lookupTime meta.time v = none → v ∉ candidates meta now minAge)
    ∧ (∀ (meta : RegistryMeta) (now : Int) (minAge : ℚ) (range : Option String),
        candidates meta now minAge = [] →
          resolveVersion meta now minAge range = .error .noCandidatesOldEnough) := by
  refine ⟨mem_candidates, ?_, resolveVersion_of_empty⟩
  intro meta now minAge v hnone hmem
  rcases (mem_candidates meta now minAge v).mp hmem with ⟨_, p, hl, _⟩
  rw [hnone] at hl
  cases hl

/-- Witness for C5: a version with no publish timestamp is not a
candidate even with threshold 0. -/
theorem candidate_set_characterization_witness :
    v110 ∉ candidates noTimeMeta scNow 0 :=
  candidate_set_characterization.2.1 noTimeMeta scNow 0 v110 (by decide)

/-- C6: the classifier maps low, moderate, high, critical to ordinals
1 to 4, defaults a missing or unknown severity to 1, and computes a
finding's highest severity as the maximum of its own ordinal and the
ordinals of the nested contributing issues that declare a severity,
bare identifier entries contributing nothing. -/
theorem severity_resolution_rules :
    (getSeverityValue (some "low") = 1 ∧ getSeverityValue (some "moderate") = 2 ∧
     getSeverityValue (some "high") = 3 ∧ getSeverityValue (some "critical") = 4 ∧
     getSeverityValue none = 1)
    ∧ (∀ s : String, s ∉ ["low", "moderate", "high", "critical"] →
        getSeverityValue (some s) = 1)
    ∧ (∀ vuln : Vuln, highestSeverity vuln =
        Nat.max (getSeverityValue vuln.severity)
          ((vuln.via.filterMap declaredSeverity).foldr Nat.max 0)) := by
  refine ⟨by decide, ?_, ?_⟩
  · intro s hs
    simp only [List.mem_cons, List.not_mem_nil, or_false, not_or] at hs
    obtain ⟨h1, h2, h3, h4⟩ := hs
    unfold getSeverityValue
    rw [show (some s).bind severityObj = severityObj s from rfl]
    unfold severityObj
    rw [if_neg h1, if_neg h2, if_neg h3, if_neg h4]
  · intro vuln
    unfold highestSeverity
    rw [viaSeverity_eq_max]

/-- Witness for C6: an unrecognized severity string defaults to
ordinal 1. -/
theorem severity_resolution_rules_witness :
    getSeverityValue (some "serious") = 1 :=
  severity_resolution_rules.2.1 "serious" (by decide)

/-- C7, counterexample: the update flow performs package-level work (an
npm install of `left-pad@latest`) under the invalid mode `blok` and
never raises the invalid-mode configuration error, refuting the claim
that every batch validates the mode before touching any package. -/
theorem update_flow_skips_mode_validation :
    validModes.contains badModePolicy.mode = false ∧
    UpdateRun badModePolicy scMeta emptyAudit scNow (fun _ => none) ["left-pad"] =
      [.installedLatestUnvalidated "left-pad"] := by decide

/-- C7, amended: the install batch flow (`run`) validates the mode
exactly once, before any package is processed, aborting the whole batch
with the invalid-mode error on a bad mode and otherwise processing every
package; the update flow performs no mode validation at all and
processes every package even under an invalid mode. -/
theorem mode_validated_in_install_flow_only :
    (∀ (policy : Policy) (meta : RegistryMeta) (audit : AuditReport) (now : Int)
        (packages : List String),
        validModes.contains policy.mode = false →
          run policy meta audit now packages = .invalidMode policy.mode)
    ∧ (∀ (policy : Policy) (meta : RegistryMeta) (audit : AuditReport) (now : Int)
        (packages : List String),
        validModes.contains policy.mode = true →
          run policy meta audit now packages =
            .completed (packages.map (checkAndInstall policy meta audit now)))
    ∧ (∀ (policy : Policy) (meta : RegistryMeta) (audit : AuditReport) (now : Int)
        (installedVersion : String → Option Version) (packages : List String),
        (UpdateRun policy meta audit now installedVersion packages).length =
          packages.length) := by
  refine ⟨?_, ?_, ?_⟩
  · intro policy meta audit now packages h
    unfold run
    rw [if_pos (by rw [h]; exact Bool.false_ne_true)]
  · intro policy meta audit now packages h
    unfold run
    rw [if_neg (fun hh => hh h)]
  · intro policy meta audit now installedVersion packages
    unfold UpdateRun
    exact List.length_map _ _

/-- Witness for C7's amended statement: the install flow aborts under
the invalid mode `blok` before touching the requested package. -/
theorem mode_validated_in_install_flow_only_witness :
    run badModePolicy scMeta emptyAudit scNow ["react"] = .invalidMode "blok" :=
  mode_validated_in_install_flow_only.1 badModePolicy scMeta emptyAudit scNow ["react"]
    (by decide)
